import Mathlib

/-!
# Verification of the tsv-graph tools

Shallow embedding of `tools/graph_search.py` and `tools/graph_validate.py`.

Conventions of the embedding:
* The physical TSV parsing is external (per the spec, rows are "rows with
  named fields"), so a row is an association list of field name to value;
  `rowGet` mirrors Python `row.get(k)` (`none` when the column is absent)
  and `rowGetD` mirrors `row.get(k, default)`.
* A Python `dict` is an insertion-ordered association list: `dinsert`
  updates an existing key in place (keeping its position, as CPython does)
  and appends a fresh key at the end; iteration order is list order.
* Python exceptions that escape a function (`KeyError` from `row['id']`)
  are modelled by `Option`: `none` means the call raises.
* Machine floats are idealised as exact rationals.  A cosine-similarity
  value `dot/(‖a‖·‖b‖)` is represented exactly by the pair
  `Sim.mk num den2` denoting the real number `num / Real.sqrt den2`
  (`num` the dot product, `den2` the product of the squared norms); a
  division with zero denominator (zero-norm vector), which numpy turns
  into NaN, is modelled as `none`.
* The embedding model (`fastembed`) is an external collaborator: the query
  embedding is a parameter, and the JSON decoding of the sidecar
  `embedding` column is a parameter `decode` (`none` = `JSONDecodeError`).
-/

namespace TsvGraph

/-- A parsed TSV row: named fields. -/
abbrev Row := List (String × String)

/-- First binding of a key in an association list (Python `dict` lookup /
`row.get(k)`). -/
def dget {α : Type} (k : String) : List (String × α) → Option α
  | [] => none
  | (k', v) :: rest => if k' = k then some v else dget k rest

/-- Python `dict` assignment `d[k] = v`: update in place when the key is
present (CPython keeps the original position), append otherwise. -/
def dinsert {α : Type} (k : String) (v : α) : List (String × α) → List (String × α)
  | [] => [(k, v)]
  | (k', v') :: rest => if k' = k then (k, v) :: rest else (k', v') :: dinsert k v rest

/-- Python `row.get(k)`. -/
def rowGet (r : Row) (k : String) : Option String := dget k r

/-- Python `row.get(k, d)`. -/
def rowGetD (r : Row) (k d : String) : String := (rowGet r k).getD d

/-- The `for` loop of `load_graph`: keep rows whose `archived_date` is
exactly `"ACTIVE"`, indexed by `row['id']`.  The bare `row['id']`
subscript raises `KeyError` when the `id` column is absent, which the
`Option` models as `none`. -/
def load_graph_loop (acc : List (String × Row)) : List Row → Option (List (String × Row))
  | [] => some acc
  | row :: rest =>
    if rowGet row "archived_date" = some "ACTIVE" then
      match rowGet row "id" with
      | none => none
      | some i => load_graph_loop (dinsert i row acc) rest
    else
      load_graph_loop acc rest

/-- Embeds `load_graph` of `tools/graph_search.py`. -/
def load_graph (rows : List Row) : Option (List (String × Row)) :=
  load_graph_loop [] rows

/-- The `for` loop of `load_embeddings`: for rows that are `ACTIVE` and
have a non-empty `embedding` field, decode the embedding (`json.loads`,
modelled by the external `decode`); a decode failure skips the row, while
a missing `id` column raises `KeyError` (`none`). -/
def load_embeddings_loop (decode : String → Option (List ℚ))
    (acc : List (String × List ℚ)) : List Row → Option (List (String × List ℚ))
  | [] => some acc
  | row :: rest =>
    if rowGet row "archived_date" = some "ACTIVE" ∧ rowGetD row "embedding" "" ≠ "" then
      match decode (rowGetD row "embedding" "") with
      | some emb =>
        match rowGet row "id" with
        | none => none
        | some i => load_embeddings_loop decode (dinsert i emb acc) rest
      | none => load_embeddings_loop decode acc rest
    else
      load_embeddings_loop decode acc rest

/-- Embeds `load_embeddings` of `tools/graph_search.py`. -/
def load_embeddings (decode : String → Option (List ℚ)) (rows : List Row) :
    Option (List (String × List ℚ)) :=
  load_embeddings_loop decode [] rows

/-- `np.dot` on equal-length vectors. -/
def dot (a b : List ℚ) : ℚ := (List.zipWith (· * ·) a b).sum

/-- Squared Euclidean norm: `np.linalg.norm a ^ 2`. -/
def normSq (a : List ℚ) : ℚ := dot a a

/-- Exact representation of a similarity score: the real number
`num / Real.sqrt den2`. -/
structure Sim where
  num : ℚ
  den2 : ℚ
deriving DecidableEq

/-- The real number a `Sim` stands for. -/
noncomputable def Sim.val (s : Sim) : ℝ := (s.num : ℝ) / Real.sqrt (s.den2 : ℝ)

/-- Comparison proxy: `fun t => t * |t|` is strictly monotone, so for
`0 < den2` the rational `num * |num| / den2` orders exactly like `val`. -/
def Sim.key (s : Sim) : ℚ := s.num * |s.num| / s.den2

/-- The score `1.0` that the keyword fallback assigns (`1 / Real.sqrt 1`). -/
def Sim.one : Sim := ⟨1, 1⟩

/-- Embeds `cosine_similarity` of `tools/graph_search.py`:
`np.dot(a, b) / (np.linalg.norm(a) * np.linalg.norm(b))`.  When the
denominator is zero (a zero-norm operand) the float division yields NaN;
the result is then undefined, modelled as `none`. -/
def cosine_similarity (a b : List ℚ) : Option Sim :=
  if normSq a * normSq b = 0 then none
  else some ⟨dot a b, normSq a * normSq b⟩

/-- Python `str.replace pat rep`: replace every non-overlapping occurrence
of the (non-empty) pattern `p :: ps`, scanning left to right. -/
def replaceAll (p : Char) (ps rep : List Char) : List Char → List Char
  | [] => []
  | c :: rest =>
    if (p :: ps) <+: (c :: rest) then
      rep ++ replaceAll p ps rep (rest.drop ps.length)
    else
      c :: replaceAll p ps rep rest
termination_by l => l.length
decreasing_by
  · simp only [List.length_cons, List.length_drop]
    omega
  · simp

/-- Embeds the sidecar path derivation of `search`:
`graph_path.replace('.tsv', '_semantics.tsv')`. -/
def semPath (path : String) : String :=
  (replaceAll '.' "tsv".toList "_semantics.tsv".toList path.toList).asString

/-- Python substring containment `pat in l` (string `in`). -/
def hasSub (pat : List Char) : List Char → Bool
  | [] => pat.isEmpty
  | c :: rest => pat.isPrefixOf (c :: rest) || hasSub pat rest

/-- `str.lower()` as a character list (ASCII case mapping; Python's full
Unicode case folding is not modelled). -/
def lower (s : String) : List Char := s.toList.map Char.toLower

/-- The fallback's match test: `query_lower in content.lower()`. -/
def fallbackMatch (queryLower : List Char) (r : Row) : Bool :=
  hasSub queryLower (lower (rowGetD r "content" ""))

/-- The keyword-fallback branch of `search`: case-insensitive substring
matches over active records, each scored `1.0`, in store order, truncated
to `top_k`. -/
def keywordResults (query : String) (entries : List (String × Row)) (top_k : Nat) :
    List (String × Sim × Row) :=
  ((entries.filter (fun e => fallbackMatch (lower query) e.2)).map
    (fun e => (e.1, Sim.one, e.2))).take top_k

/-- The scoring loop of the semantic branch: for each embedding-index entry
whose id is also in the record store, attach the cosine similarity to the
query embedding (in embedding-index iteration order).  `none` when some
similarity is undefined (zero-norm operand; in the implementation the
float division silently yields NaN, whose ordering is outside this
model). -/
def semanticScores (queryEmb : List ℚ) (entries : List (String × Row)) :
    List (String × List ℚ) → Option (List (String × Sim × Row))
  | [] => some []
  | p :: ps =>
    match dget p.1 entries with
    | none => semanticScores queryEmb entries ps
    | some e =>
      match cosine_similarity queryEmb p.2 with
      | none => none
      | some s => (semanticScores queryEmb entries ps).map (fun rest => (p.1, s, e) :: rest)

/-- The comparison `scores.sort(key=lambda x: x[1], reverse=True)` sorts
by: x before y when the similarity of x is at least that of y. -/
def simGe (x y : String × Sim × Row) : Bool := decide (Sim.key y.2.1 ≤ Sim.key x.2.1)

/-- Loading the sidecar inside `search`: a missing file (`none`) yields the
empty mapping, which is not an error. -/
def loadSidecar (decode : String → Option (List ℚ)) (semRows : Option (List Row)) :
    Option (List (String × List ℚ)) :=
  match semRows with
  | none => some []
  | some rs => load_embeddings decode rs

/-- Embeds `search` of `tools/graph_search.py`.  File discovery and the
embedding model are external: `graphRows` are the parsed rows of
`graph_path`, `semRows` the parsed rows of the derived sidecar (`none` =
file absent), and `queryEmb` the query embedding produced by the model. -/
def search (decode : String → Option (List ℚ)) (graphRows : List Row)
    (semRows : Option (List Row)) (queryEmb : List ℚ) (query : String)
    (top_k : Nat := 10) : Option (List (String × Sim × Row)) :=
  match load_graph graphRows with
  | none => none
  | some entries =>
    match loadSidecar decode semRows with
    | none => none
    | some embeddings =>
      if embeddings = [] then
        some (keywordResults query entries top_k)
      else
        (semanticScores queryEmb entries embeddings).map
          (fun scores => (scores.mergeSort simGe).take top_k)

/-! ## Validator (`tools/graph_validate.py`) -/

/-- `REQUIRED_FIELDS` of `tools/graph_validate.py`. -/
def REQUIRED_FIELDS : List String :=
  ["archived_date", "id", "type", "stance", "timestamp",
   "certainty", "perspective", "domain", "ref1", "ref2",
   "content", "relation", "weight", "schema", "semantic_text"]

/-- `VALID_STANCES` of `tools/graph_validate.py`. -/
def VALID_STANCES : List String :=
  ["fact", "opinion", "aspiration", "observation", "link", "question", "protocol"]

/-- `VALID_TYPES` of `tools/graph_validate.py`. -/
def VALID_TYPES : List String := ["item", "link"]

/-- The diagnostics `validate_graph` accumulates.  Each constructor stands
for one of the distinct f-strings of the source, and carries exactly the
data that f-string interpolates (the 1-based row number first). -/
inductive Err where
  | missingFields (fs : List String)
  | dupId (row : Nat) (id : String)
  | invalidStance (row : Nat) (s : String)
  | invalidType (row : Nat) (s : String)
  | certaintyOutOfRange (row : Nat) (c : ℚ)
  | invalidCertainty (row : Nat) (s : String)
  | invalidArchivedDate (row : Nat) (s : String)
  | linkMissingRef1 (row : Nat)
  | linkMissingRef2 (row : Nat)
  | fileNotFound (path : String)
  | noHeaderRow
deriving DecidableEq

/-- The 1-based row number carried by a per-row diagnostic (0 for the
structural ones). -/
def Err.rowNum : Err → Nat
  | .missingFields _ => 0
  | .dupId n _ => n
  | .invalidStance n _ => n
  | .invalidType n _ => n
  | .certaintyOutOfRange n _ => n
  | .invalidCertainty n _ => n
  | .invalidArchivedDate n _ => n
  | .linkMissingRef1 n => n
  | .linkMissingRef2 n => n
  | .fileNotFound _ => 0
  | .noHeaderRow => 0

/-- Numeric value of a run of decimal digits. -/
def digitsVal (ds : List Char) : Nat := ds.foldl (fun a c => a * 10 + (c.toNat - 48)) 0

/-- Modelled from the spec and Python semantics: `float(s)` for the plain
decimal forms — optional sign, digits with an optional fractional part (at
least one digit overall), and an optional `e`/`E` exponent.  Surrounding
whitespace, underscores and the `inf`/`nan` forms are not modelled; the
result is the exact rational the literal denotes (float rounding is
idealised away). `none` is Python's `ValueError`. -/
def parseFloat? (str : String) : Option ℚ :=
  let cs := str.toList
  let sgn : ℚ × List Char :=
    match cs with
    | '-' :: t => (-1, t)
    | '+' :: t => (1, t)
    | t => (1, t)
  let ip := sgn.2.takeWhile Char.isDigit
  let cs2 := sgn.2.dropWhile Char.isDigit
  let fr : List Char × List Char :=
    match cs2 with
    | '.' :: t => (t.takeWhile Char.isDigit, t.dropWhile Char.isDigit)
    | t => ([], t)
  if ip = [] ∧ fr.1 = [] then none
  else
    let mant : ℚ := sgn.1 * ((digitsVal ip : ℚ) + (digitsVal fr.1 : ℚ) / 10 ^ fr.1.length)
    match fr.2 with
    | [] => some mant
    | e :: t =>
      if e = 'e' ∨ e = 'E' then
        let esgn : ℤ × List Char :=
          match t with
          | '-' :: t2 => (-1, t2)
          | '+' :: t2 => (1, t2)
          | t2 => (1, t2)
        let ed := esgn.2.takeWhile Char.isDigit
        let rest := esgn.2.dropWhile Char.isDigit
        if ed = [] ∨ rest ≠ [] then none
        else some (mant * (10 : ℚ) ^ (esgn.1 * digitsVal ed))
      else none

/-- `re.match(r'^\d{4}-\d{2}-\d{2}', s)`: the string begins with
digit-quadruple, hyphen, digit-pair, hyphen, digit-pair; anything may
follow (ASCII digits; Python's unicode digit classes are not modelled). -/
def isoDateStart (s : String) : Bool :=
  match s.toList with
  | y1 :: y2 :: y3 :: y4 :: '-' :: m1 :: m2 :: '-' :: d1 :: d2 :: _ =>
    y1.isDigit && y2.isDigit && y3.isDigit && y4.isDigit &&
      m1.isDigit && m2.isDigit && d1.isDigit && d2.isDigit
  | _ => false

/-- The `id` value a row contributes to the uniqueness check
(`row.get('id', '')`). -/
def rowId (r : Row) : String := rowGetD r "id" ""

/-- The duplicate-ID check of the loop body. -/
def idErrs (n : Nat) (seen : List String) (r : Row) : List Err :=
  if rowId r ∈ seen then [Err.dupId n (rowId r)] else []

/-- The stance check of the loop body. -/
def stanceErrs (n : Nat) (r : Row) : List Err :=
  let st := rowGetD r "stance" ""
  if st ≠ "" ∧ st ∉ VALID_STANCES then [Err.invalidStance n st] else []

/-- The type check of the loop body. -/
def typeErrs (n : Nat) (r : Row) : List Err :=
  let ty := rowGetD r "type" ""
  if ty ≠ "" ∧ ty ∉ VALID_TYPES then [Err.invalidType n ty] else []

/-- The certainty check of the loop body: a non-empty value must parse as
a float (one error kind), and a parsed value must lie in [0, 1] (a
distinct error kind). -/
def certaintyErrs (n : Nat) (r : Row) : List Err :=
  let ce := rowGetD r "certainty" ""
  if ce = "" then []
  else
    match parseFloat? ce with
    | some c => if ¬ (0 ≤ c ∧ c ≤ 1) then [Err.certaintyOutOfRange n c] else []
    | none => [Err.invalidCertainty n ce]

/-- The archived-date check of the loop body. -/
def archivedErrs (n : Nat) (r : Row) : List Err :=
  let ar := rowGetD r "archived_date" ""
  if ar ≠ "" ∧ ar ≠ "ACTIVE" ∧ ¬ isoDateStart ar then [Err.invalidArchivedDate n ar] else []

/-- The link-refs check of the loop body. -/
def linkErrs (n : Nat) (r : Row) : List Err :=
  if rowGetD r "type" "" = "link" then
    (if rowGetD r "ref1" "" = "" then [Err.linkMissingRef1 n] else []) ++
      (if rowGetD r "ref2" "" = "" then [Err.linkMissingRef2 n] else [])
  else []

/-- One iteration of the validation loop: the checks in source order. -/
def checkRow (n : Nat) (seen : List String) (r : Row) : List Err :=
  idErrs n seen r ++ stanceErrs n r ++ typeErrs n r ++ certaintyErrs n r ++
    archivedErrs n r ++ linkErrs n r

/-- The validation loop: `n` is the row counter before the iteration
(initially 1, the header row), `seen` the set of `id` values seen so far. -/
def validateRows (n : Nat) (seen : List String) : List Row → List Err
  | [] => []
  | r :: rs => checkRow (n + 1) seen r ++ validateRows (n + 1) (rowId r :: seen) rs

/-- What `validate_graph` is given: a missing file, a file with no header
row, or a header (the column names) plus the data rows.  (Physical file
access and TSV parsing are external.) -/
inductive GraphSource where
  | missing (path : String)
  | noHeader
  | file (header : List String) (rows : List Row)

/-- Embeds `validate_graph` of `tools/graph_validate.py`.  The missing
required fields are listed in `REQUIRED_FIELDS` order (the source renders
a Python set, whose display order is unspecified). -/
def validate_graph : GraphSource → Bool × List Err
  | .missing p => (false, [Err.fileNotFound p])
  | .noHeader => (false, [Err.noHeaderRow])
  | .file header rows =>
    let missing := REQUIRED_FIELDS.filter (fun f => f ∉ header)
    let headErrs := if missing = [] then [] else [Err.missingFields missing]
    let errs := headErrs ++ validateRows 1 [] rows
    (errs.isEmpty, errs)

/-! ## Concrete test data (used by witnesses and concrete claim parts) -/

/-- An active record whose content contains the word "Alpha". -/
def rowA : Row := [("archived_date", "ACTIVE"), ("id", "a"), ("content", "The Alpha keyword")]

/-- An active record whose content does not contain "alpha". -/
def rowB : Row := [("archived_date", "ACTIVE"), ("id", "b"), ("content", "beta")]

/-- A two-record store. -/
def demoGraph : List Row := [rowA, rowB]

/-- A sidecar with embeddings for `b` (listed first) and `a`. -/
def demoSem : List Row :=
  [[("archived_date", "ACTIVE"), ("id", "b"), ("embedding", "E2")],
   [("archived_date", "ACTIVE"), ("id", "a"), ("embedding", "E1")]]

/-- A deterministic stand-in for `json.loads` on the demo blobs. -/
def demoDecode (s : String) : Option (List ℚ) :=
  if s = "E1" then some [1, 0] else if s = "E2" then some [0, 1] else none

/-- Rows with a duplicated id "x" (the first occurrence archived) and two
rows without an id column (both contribute the empty-string id). -/
def demoDupRows : List Row :=
  [[("archived_date", "2024-01-15"), ("id", "x")],
   [("archived_date", "ACTIVE"), ("id", "x")],
   [("archived_date", "ACTIVE")],
   [("archived_date", "ACTIVE")]]

/-- Rows exercising the certainty check: "0.0", "1.0", "1.1", "-0.1",
"abc". -/
def demoCertRows : List Row :=
  [[("archived_date", "ACTIVE"), ("id", "a"), ("certainty", "0.0")],
   [("archived_date", "ACTIVE"), ("id", "b"), ("certainty", "1.0")],
   [("archived_date", "ACTIVE"), ("id", "c"), ("certainty", "1.1")],
   [("archived_date", "ACTIVE"), ("id", "d"), ("certainty", "-0.1")],
   [("archived_date", "ACTIVE"), ("id", "e"), ("certainty", "abc")]]

/-- Rows exercising the archived-date check: "ACTIVE", "2024-01-15",
"2024-1-15", "not-a-date". -/
def demoArchRows : List Row :=
  [[("archived_date", "ACTIVE"), ("id", "a")],
   [("archived_date", "2024-01-15"), ("id", "b")],
   [("archived_date", "2024-1-15"), ("id", "c")],
   [("archived_date", "not-a-date"), ("id", "d")]]

/-- A row violating none of the per-row checks (hypothesis side of C9,
phrased from the spec's list of checks): stance and type in their enums
or empty, certainty empty or parsing into [0, 1], archived_date empty,
"ACTIVE" or ISO-prefixed, and links carrying both refs. -/
def RowChecksOk (r : Row) : Prop :=
  (rowGetD r "stance" "" = "" ∨ rowGetD r "stance" "" ∈ VALID_STANCES) ∧
  (rowGetD r "type" "" = "" ∨ rowGetD r "type" "" ∈ VALID_TYPES) ∧
  (rowGetD r "certainty" "" = "" ∨
    ∃ c, parseFloat? (rowGetD r "certainty" "") = some c ∧ 0 ≤ c ∧ c ≤ 1) ∧
  (rowGetD r "archived_date" "" = "" ∨ rowGetD r "archived_date" "" = "ACTIVE" ∨
    isoDateStart (rowGetD r "archived_date" "") = true) ∧
  (rowGetD r "type" "" = "link" → rowGetD r "ref1" "" ≠ "" ∧ rowGetD r "ref2" "" ≠ "")

/-- A fully valid row used by the C9 witness. -/
def demoGoodRow : Row :=
  [("archived_date", "ACTIVE"), ("id", "g"), ("type", "item"), ("stance", "fact"),
   ("certainty", "0.5")]

/-! ## General lemmas about the embedded definitions -/

theorem hasSub_iff_infix (pat : List Char) :
    ∀ l : List Char, hasSub pat l = true ↔ pat <:+: l := by
  intro l
  induction l with
  | nil => rw [hasSub]; simp [List.isEmpty_iff]
  | cons c rest ih =>
    rw [hasSub]
    simp only [Bool.or_eq_true, List.isPrefixOf_iff_prefix, ih, List.infix_cons_iff]

theorem dget_mem {α : Type} (k : String) (v : α) :
    ∀ d : List (String × α), dget k d = some v → (k, v) ∈ d := by
  intro d
  induction d with
  | nil => intro h; simp [dget] at h
  | cons p rest ih =>
    obtain ⟨k', v'⟩ := p
    intro h
    rw [dget] at h
    split_ifs at h with hk
    · cases h; subst hk; exact List.mem_cons_self _ _
    · exact List.mem_cons_of_mem _ (ih h)

theorem mem_dinsert {α : Type} (k : String) (v : α) (x : String × α) :
    ∀ d : List (String × α), x ∈ dinsert k v d → x = (k, v) ∨ x ∈ d := by
  intro d
  induction d with
  | nil => intro h; simpa [dinsert] using h
  | cons p rest ih =>
    obtain ⟨k', v'⟩ := p
    intro h
    rw [dinsert] at h
    split_ifs at h with hk
    · rcases List.mem_cons.mp h with h | h
      · exact Or.inl h
      · exact Or.inr (List.mem_cons_of_mem _ h)
    · rcases List.mem_cons.mp h with h | h
      · exact Or.inr (h ▸ List.mem_cons_self _ _)
      · rcases ih h with h | h
        · exact Or.inl h
        · exact Or.inr (List.mem_cons_of_mem _ h)

theorem load_graph_loop_mem :
    ∀ (rows : List Row) (acc entries : List (String × Row)),
      load_graph_loop acc rows = some entries →
      ∀ p ∈ entries,
        p ∈ acc ∨ (rowGet p.2 "archived_date" = some "ACTIVE" ∧ rowGet p.2 "id" = some p.1) := by
  intro rows
  induction rows with
  | nil =>
    intro acc entries h p hp
    rw [load_graph_loop] at h
    cases h
    exact Or.inl hp
  | cons row rest ih =>
    intro acc entries h p hp
    rw [load_graph_loop] at h
    split_ifs at h with hact
    · cases hid : rowGet row "id" with
      | none => rw [hid] at h; cases h
      | some i =>
        rw [hid] at h
        rcases ih _ _ h p hp with hin | hgood
        · rcases mem_dinsert _ _ _ _ hin with rfl | hin
          · exact Or.inr ⟨hact, hid⟩
          · exact Or.inl hin
        · exact Or.inr hgood
    · exact ih _ _ h p hp

theorem load_graph_active (rows : List Row) (entries : List (String × Row))
    (h : load_graph rows = some entries) :
    ∀ p ∈ entries, rowGet p.2 "archived_date" = some "ACTIVE" ∧ rowGet p.2 "id" = some p.1 := by
  intro p hp
  rcases load_graph_loop_mem rows [] entries h p hp with hin | hgood
  · simp at hin
  · exact hgood

theorem normSq_cons (x : ℚ) (a : List ℚ) : normSq (x :: a) = x * x + normSq a := by
  simp [normSq, dot]

theorem normSq_nonneg (a : List ℚ) : 0 ≤ normSq a := by
  induction a with
  | nil => simp [normSq, dot]
  | cons x a ih => rw [normSq_cons]; nlinarith [mul_self_nonneg x]

theorem normSq_eq_zero_iff (a : List ℚ) : normSq a = 0 ↔ ∀ x ∈ a, x = 0 := by
  induction a with
  | nil => simp [normSq, dot]
  | cons x a ih =>
    rw [normSq_cons]
    constructor
    · intro h
      have hx : x = 0 := by nlinarith [mul_self_nonneg x, normSq_nonneg a]
      have ha : normSq a = 0 := by nlinarith [mul_self_nonneg x, normSq_nonneg a]
      intro y hy
      rcases List.mem_cons.mp hy with rfl | hy
      · exact hx
      · exact (ih.mp ha) y hy
    · intro h
      have hx : x = 0 := h x (List.mem_cons_self _ _)
      have ha : normSq a = 0 := ih.mpr (fun y hy => h y (List.mem_cons_of_mem _ hy))
      rw [hx, ha]; ring

theorem cosine_similarity_eq_none_iff (a b : List ℚ) :
    cosine_similarity a b = none ↔ normSq a = 0 ∨ normSq b = 0 := by
  rw [cosine_similarity]
  split_ifs with h
  · simpa [mul_eq_zero] using h
  · simpa [mul_eq_zero] using h

theorem cosine_similarity_eq_some (a b : List ℚ) (ha : normSq a ≠ 0) (hb : normSq b ≠ 0) :
    cosine_similarity a b = some ⟨dot a b, normSq a * normSq b⟩ := by
  rw [cosine_similarity, if_neg]
  simpa [mul_eq_zero] using not_or.mpr ⟨ha, hb⟩

theorem cosine_similarity_den2 (a b : List ℚ) (s : Sim)
    (h : cosine_similarity a b = some s) :
    0 < s.den2 ∧ s.num = dot a b ∧ s.den2 = normSq a * normSq b := by
  rw [cosine_similarity] at h
  split_ifs at h with hz
  cases h
  refine ⟨lt_of_le_of_ne (mul_nonneg (normSq_nonneg a) (normSq_nonneg b)) (Ne.symm hz), rfl, rfl⟩

theorem mul_abs_strictMono : StrictMono (fun x : ℝ => x * |x|) := by
  intro a b hab
  simp only []
  rcases le_or_lt 0 a with ha | ha
  · rw [abs_of_nonneg ha, abs_of_nonneg (le_trans ha hab.le)]
    nlinarith
  · rcases le_or_lt 0 b with hb | hb
    · rw [abs_of_neg ha, abs_of_nonneg hb]
      nlinarith
    · rw [abs_of_neg ha, abs_of_neg hb]
      nlinarith

theorem Sim.key_cast (u : Sim) (hu : 0 < u.den2) :
    ((Sim.key u : ℚ) : ℝ) = Sim.val u * |Sim.val u| := by
  have hud : (0 : ℝ) < (u.den2 : ℝ) := by exact_mod_cast hu
  have hsq : Real.sqrt (u.den2 : ℝ) * Real.sqrt (u.den2 : ℝ) = (u.den2 : ℝ) :=
    Real.mul_self_sqrt hud.le
  calc ((Sim.key u : ℚ) : ℝ) = ((u.num : ℝ) * |(u.num : ℝ)|) / (u.den2 : ℝ) := by
        rw [Sim.key]; push_cast; ring
    _ = ((u.num : ℝ) / Real.sqrt (u.den2 : ℝ)) * (|(u.num : ℝ)| / Real.sqrt (u.den2 : ℝ)) := by
        rw [div_mul_div_comm, hsq]
    _ = Sim.val u * |Sim.val u| := by
        rw [Sim.val, abs_div, abs_of_nonneg (Real.sqrt_nonneg _)]

theorem Sim.val_le_val_iff (s t : Sim) (hs : 0 < s.den2) (ht : 0 < t.den2) :
    Sim.val s ≤ Sim.val t ↔ Sim.key s ≤ Sim.key t := by
  have h := mul_abs_strictMono.le_iff_le (a := Sim.val s) (b := Sim.val t)
  simp only [] at h
  rw [← h, ← Sim.key_cast s hs, ← Sim.key_cast t ht]
  exact_mod_cast Iff.rfl

theorem Sim.val_one : Sim.val Sim.one = 1 := by
  rw [Sim.val, Sim.one]
  norm_num [Real.sqrt_one]

theorem simGe_trans (a b c : String × Sim × Row) (h1 : simGe a b) (h2 : simGe b c) :
    simGe a c := by
  simp only [simGe, decide_eq_true_eq] at *
  exact le_trans h2 h1

theorem simGe_total (a b : String × Sim × Row) : simGe a b || simGe b a := by
  simp only [simGe, Bool.or_eq_true, decide_eq_true_eq]
  exact le_total _ _

/-! ## Lemmas about the two branches of `search` -/

theorem search_fallback (decode : String → Option (List ℚ)) (graphRows : List Row)
    (semRows : Option (List Row)) (queryEmb : List ℚ) (query : String) (k : Nat)
    (entries : List (String × Row))
    (h1 : load_graph graphRows = some entries)
    (h2 : loadSidecar decode semRows = some []) :
    search decode graphRows semRows queryEmb query k = some (keywordResults query entries k) := by
  rw [search, h1, h2]
  simp

theorem search_semantic (decode : String → Option (List ℚ)) (graphRows : List Row)
    (semRows : Option (List Row)) (queryEmb : List ℚ) (query : String) (k : Nat)
    (entries : List (String × Row)) (embeddings : List (String × List ℚ))
    (h1 : load_graph graphRows = some entries)
    (h2 : loadSidecar decode semRows = some embeddings)
    (h3 : embeddings ≠ []) :
    search decode graphRows semRows queryEmb query k =
      (semanticScores queryEmb entries embeddings).map
        (fun scores => (scores.mergeSort simGe).take k) := by
  rw [search, h1, h2]
  simp [h3]

theorem semanticScores_mem (queryEmb : List ℚ) (entries : List (String × Row)) :
    ∀ (embs : List (String × List ℚ)) (scores : List (String × Sim × Row)),
      semanticScores queryEmb entries embs = some scores →
      ∀ x ∈ scores, dget x.1 entries = some x.2.2 ∧
        ∃ v, (x.1, v) ∈ embs ∧ cosine_similarity queryEmb v = some x.2.1 := by
  intro embs
  induction embs with
  | nil =>
    intro scores h x hx
    rw [semanticScores] at h
    cases h
    simp at hx
  | cons p ps ih =>
    intro scores h x hx
    rw [semanticScores] at h
    cases hd : dget p.1 entries with
    | none =>
      rw [hd] at h
      obtain ⟨hm, ⟨v, hv, hc⟩⟩ := ih scores h x hx
      exact ⟨hm, v, List.mem_cons_of_mem _ hv, hc⟩
    | some e =>
      rw [hd] at h
      cases hc : cosine_similarity queryEmb p.2 with
      | none => rw [hc] at h; cases h
      | some s =>
        rw [hc] at h
        cases hrest : semanticScores queryEmb entries ps with
        | none => rw [hrest] at h; cases h
        | some rest =>
          rw [hrest] at h
          cases h
          rcases List.mem_cons.mp hx with rfl | hx
          · exact ⟨hd, p.2, List.mem_cons_self _ _, hc⟩
          · obtain ⟨hm, ⟨v, hv, hcv⟩⟩ := ih rest hrest x hx
            exact ⟨hm, v, List.mem_cons_of_mem _ hv, hcv⟩

theorem semanticScores_eq (queryEmb : List ℚ) (entries : List (String × Row))
    (hq : normSq queryEmb ≠ 0) :
    ∀ embs : List (String × List ℚ), (∀ p ∈ embs, normSq p.2 ≠ 0) →
      semanticScores queryEmb entries embs =
        some (embs.filterMap (fun p => (dget p.1 entries).map
          (fun e => (p.1, (⟨dot queryEmb p.2, normSq queryEmb * normSq p.2⟩ : Sim), e)))) := by
  intro embs
  induction embs with
  | nil => intro; rw [semanticScores]; simp
  | cons p ps ih =>
    intro hall
    rw [semanticScores]
    cases hd : dget p.1 entries with
    | none =>
      rw [ih (fun q hq2 => hall q (List.mem_cons_of_mem _ hq2))]
      simp [List.filterMap_cons, hd]
    | some e =>
      rw [cosine_similarity_eq_some _ _ hq (hall p (List.mem_cons_self _ _)),
        ih (fun q hq2 => hall q (List.mem_cons_of_mem _ hq2))]
      simp [List.filterMap_cons, hd]

theorem keywordResults_mem (query : String) (entries : List (String × Row)) (k : Nat) :
    ∀ x ∈ keywordResults query entries k, x.2.1 = Sim.one ∧ (x.1, x.2.2) ∈ entries ∧
      fallbackMatch (lower query) x.2.2 = true := by
  intro x hx
  rw [keywordResults] at hx
  have hx2 := (List.take_sublist _ _).subset hx
  obtain ⟨e, he, rfl⟩ := List.mem_map.mp hx2
  have he2 := List.mem_filter.mp he
  exact ⟨rfl, he2.1, he2.2⟩

/-! ## Lemmas about `str.replace` and the sidecar path derivation -/

theorem replaceAll_of_not_infix (p : Char) (ps rep : List Char) :
    ∀ l : List Char, ¬ ((p :: ps) <:+: l) → replaceAll p ps rep l = l := by
  intro l
  induction l with
  | nil => intro; rw [replaceAll]
  | cons c rest ih =>
    intro h
    rw [replaceAll, if_neg (fun hp => h hp.isInfix), ih (fun hi => h (List.infix_cons hi))]

theorem replaceAll_tsv_append (rep : List Char) :
    ∀ s : List Char, ¬ (['.', 't', 's', 'v'] <:+: s) →
      replaceAll '.' ['t', 's', 'v'] rep (s ++ ['.', 't', 's', 'v']) = s ++ rep := by
  intro s
  induction s with
  | nil =>
    intro
    rw [List.nil_append, replaceAll, if_pos (List.prefix_refl _)]
    rw [show List.drop (List.length ['t', 's', 'v']) ['t', 's', 'v'] = [] from rfl]
    rw [replaceAll]
    simp
  | cons c s' ih =>
    intro h
    have hnp : ¬ (['.', 't', 's', 'v'] <+: (c :: (s' ++ ['.', 't', 's', 'v']))) := by
      intro hp
      rcases s' with _ | ⟨a, _ | ⟨b, _ | ⟨d, s''⟩⟩⟩
      · rw [List.nil_append] at hp
        simp [List.cons_prefix_cons] at hp
      · simp [List.cons_prefix_cons] at hp
      · simp [List.cons_prefix_cons] at hp
      · simp only [List.cons_append, List.cons_prefix_cons] at hp
        obtain ⟨h1, h2, h3, h4, -⟩ := hp
        exact h ⟨[], s'', by rw [← h1, ← h2, ← h3, ← h4]; rfl⟩
    rw [List.cons_append, replaceAll, if_neg hnp,
      ih (fun hi => h (List.infix_cons hi)), List.cons_append]

theorem semPath_of_not_tsv (p : String) (h : ¬ (['.', 't', 's', 'v'] <:+: p.toList)) :
    semPath p = p := by
  rw [semPath, show "tsv".toList = ['t', 's', 'v'] from rfl,
    replaceAll_of_not_infix '.' ['t', 's', 'v'] _ _ h, String.asString_toList]

theorem semPath_trailing (p : String) (h : ¬ (['.', 't', 's', 'v'] <:+: p.toList)) :
    semPath (p ++ ".tsv") = p ++ "_semantics.tsv" := by
  rw [semPath, show "tsv".toList = ['t', 's', 'v'] from rfl]
  have htl : (p ++ ".tsv").toList = p.toList ++ ['.', 't', 's', 'v'] := by
    rw [String.toList, String.data_append]; rfl
  rw [htl, replaceAll_tsv_append _ _ h, List.asString_eq]
  show p.data ++ "_semantics.tsv".data = (p ++ "_semantics.tsv").data
  rw [String.data_append]

theorem load_graph_loop_none_iff :
    ∀ rows : List Row, (∀ r ∈ rows, rowGet r "id" = none) →
      ∀ acc, (load_graph_loop acc rows = none ↔
        ∃ r ∈ rows, rowGet r "archived_date" = some "ACTIVE") := by
  intro rows
  induction rows with
  | nil => intro _ acc; rw [load_graph_loop]; simp
  | cons row rest ih =>
    intro hid acc
    rw [load_graph_loop]
    split_ifs with hact
    · rw [hid row (List.mem_cons_self _ _)]
      simp [hact]
    · rw [ih (fun r hr => hid r (List.mem_cons_of_mem _ hr)) acc]
      simp [hact]

theorem load_graph_loop_total :
    ∀ rows : List Row,
      (∀ r ∈ rows, rowGet r "archived_date" = some "ACTIVE" → (rowGet r "id").isSome) →
      ∀ acc, ∃ d, load_graph_loop acc rows = some d := by
  intro rows
  induction rows with
  | nil => intro _ acc; exact ⟨acc, rfl⟩
  | cons row rest ih =>
    intro hid acc
    rw [load_graph_loop]
    split_ifs with hact
    · cases hg : rowGet row "id" with
      | none =>
        have := hid row (List.mem_cons_self _ _) hact
        rw [hg] at this
        cases this
      | some i => exact ih (fun r hr => hid r (List.mem_cons_of_mem _ hr)) _
    · exact ih (fun r hr => hid r (List.mem_cons_of_mem _ hr)) _

/-! ## Claims -/

/-- C1, counterexample.  The claim says `cosine_similarity` returns a
deterministic sentinel (e.g. 0.0) when an operand has zero Euclidean norm.
On the vectors `[0]` and `[1]` the denominator `‖a‖·‖b‖` is zero and the
source just divides, so no defined similarity value is produced (numpy
yields NaN): the embedding returns `none`, not a sentinel score. -/
theorem claim_C1_counterexample : cosine_similarity [(0 : ℚ)] [1] = none := by
  rw [cosine_similarity_eq_none_iff]
  left
  simp [normSq, dot]

/-- C1, amended.  `cosine_similarity` defines no sentinel for zero-norm
input: its result is undefined (NaN in the implementation, `none` here)
exactly when at least one operand is the zero vector, and it is a defined
value exactly when both norms are non-zero. -/
theorem claim_C1_amended (a b : List ℚ) :
    cosine_similarity a b = none ↔ ((∀ x ∈ a, x = 0) ∨ (∀ x ∈ b, x = 0)) := by
  rw [cosine_similarity_eq_none_iff, normSq_eq_zero_iff, normSq_eq_zero_iff]

unseal replaceAll in
/-- C2, counterexample.  The claim says the sidecar path substitutes
`"_semantics"` before the *trailing* extension for all paths.  The source
uses `graph_path.replace('.tsv', '_semantics.tsv')`, which replaces
*every* occurrence of `".tsv"`: `"a.tsv.tsv"` becomes
`"a_semantics.tsv_semantics.tsv"` (not `"a.tsv_semantics.tsv"`), and a
path with no `".tsv"` occurrence, such as `"graph.md"`, is returned
unchanged (no suffix is substituted before its `".md"` extension). -/
theorem claim_C2_counterexample :
    semPath "a.tsv.tsv" = "a_semantics.tsv_semantics.tsv" ∧
      semPath "a.tsv.tsv" ≠ "a.tsv_semantics.tsv" ∧
      semPath "graph.md" = "graph.md" := by
  refine ⟨by decide, by decide, by decide⟩

/-- C2, amended.  The derivation replaces every occurrence of `".tsv"`
with `"_semantics.tsv"`.  Hence: a path in which `".tsv"` does not occur
is returned unchanged, and a path of the form `p ++ ".tsv"` whose stem
`p` contains no `".tsv"` maps to `p ++ "_semantics.tsv"` — the behaviour
the claim describes holds only for paths with exactly one `".tsv"`
occurrence, at the end. -/
theorem claim_C2_amended :
    (∀ p : String, ¬ (['.', 't', 's', 'v'] <:+: p.toList) → semPath p = p) ∧
    (∀ p : String, ¬ (['.', 't', 's', 'v'] <:+: p.toList) →
      semPath (p ++ ".tsv") = p ++ "_semantics.tsv") :=
  ⟨semPath_of_not_tsv, semPath_trailing⟩

/-- C2, witness for the amended claim: the stem `"graph"` and the
`.tsv`-free path `"notes.md"` satisfy the hypotheses, and the amended
claim computes their sidecar paths. -/
theorem claim_C2_amended_witness :
    (¬ (['.', 't', 's', 'v'] <:+: "graph".toList)) ∧
      semPath ("graph" ++ ".tsv") = "graph" ++ "_semantics.tsv" ∧
      semPath "notes.md" = "notes.md" :=
  ⟨by decide, claim_C2_amended.2 "graph" (by decide), claim_C2_amended.1 "notes.md" (by decide)⟩

/-- C10.  `load_graph` is not total over files whose header lacks an `id`
column: when no row has an `id` field, loading raises `KeyError`
(modelled as `none`) exactly when some row is `ACTIVE` (the failure
occurs at the first such row, where `row['id']` is evaluated); whereas
whenever every `ACTIVE` row does carry an `id` field, loading succeeds no
matter which other fields are missing. -/
theorem claim_C10 :
    (∀ rows : List Row, (∀ r ∈ rows, rowGet r "id" = none) →
      (load_graph rows = none ↔ ∃ r ∈ rows, rowGet r "archived_date" = some "ACTIVE")) ∧
    (∀ rows : List Row,
      (∀ r ∈ rows, rowGet r "archived_date" = some "ACTIVE" → (rowGet r "id").isSome) →
      ∃ d, load_graph rows = some d) :=
  ⟨fun rows hid => load_graph_loop_none_iff rows hid [],
   fun rows hid => load_graph_loop_total rows hid []⟩

/-- C10, witness: a single row `{archived_date: ACTIVE}` with no `id`
field makes `load_graph` raise (`none`); adding only an `id` field makes
it succeed even though all other columns are missing. -/
theorem claim_C10_witness :
    (∀ r ∈ ([[("archived_date", "ACTIVE")]] : List Row), rowGet r "id" = none) ∧
      load_graph ([[("archived_date", "ACTIVE")]] : List Row) = none ∧
      (∃ d, load_graph ([[("archived_date", "ACTIVE"), ("id", "x")]] : List Row) = some d) :=
  ⟨by decide,
   (claim_C10.1 [[("archived_date", "ACTIVE")]] (by decide)).mpr
     ⟨[("archived_date", "ACTIVE")], by simp, by decide⟩,
   claim_C10.2 [[("archived_date", "ACTIVE"), ("id", "x")]] (by decide)⟩

/-- If every element of the scored list got its score from
`cosine_similarity`, its `den2` (the squared norm product) is positive. -/
theorem mem_scored_den2_pos (queryEmb : List ℚ) (entries : List (String × Row))
    (hq : normSq queryEmb ≠ 0) (embeddings : List (String × List ℚ))
    (hall : ∀ p ∈ embeddings, normSq p.2 ≠ 0) (x : String × Sim × Row)
    (hx : x ∈ embeddings.filterMap (fun p => (dget p.1 entries).map
      (fun e => (p.1, (⟨dot queryEmb p.2, normSq queryEmb * normSq p.2⟩ : Sim), e)))) :
    0 < x.2.1.den2 := by
  obtain ⟨p, hp, hsome⟩ := List.mem_filterMap.mp hx
  obtain ⟨e, -, rfl⟩ := Option.map_eq_some'.mp hsome
  exact lt_of_le_of_ne (mul_nonneg (normSq_nonneg _) (normSq_nonneg _))
    (Ne.symm (mul_ne_zero hq (hall p hp)))

/-- C5.  Every record returned by `search` — in either branch — is a
member of the active-filtered record store, hence an active record
(`archived_date = "ACTIVE"`); in particular an id present in the
embedding index but absent from the store never appears in results. -/
theorem claim_C5 (decode : String → Option (List ℚ)) (graphRows : List Row)
    (semRows : Option (List Row)) (queryEmb : List ℚ) (query : String) (k : Nat)
    (entries : List (String × Row)) (res : List (String × Sim × Row))
    (h1 : load_graph graphRows = some entries)
    (h2 : search decode graphRows semRows queryEmb query k = some res) :
    ∀ x ∈ res, (x.1, x.2.2) ∈ entries ∧ rowGet x.2.2 "archived_date" = some "ACTIVE" := by
  intro x hx
  cases hsc : loadSidecar decode semRows with
  | none =>
    rw [search, h1, hsc] at h2
    cases h2
  | some embeddings =>
    by_cases hemp : embeddings = []
    · subst hemp
      rw [search_fallback decode graphRows semRows queryEmb query k entries h1 hsc] at h2
      cases h2
      obtain ⟨-, hmem, -⟩ := keywordResults_mem query entries k x hx
      exact ⟨hmem, (load_graph_active _ _ h1 _ hmem).1⟩
    · rw [search_semantic decode graphRows semRows queryEmb query k entries embeddings
        h1 hsc hemp] at h2
      cases hss : semanticScores queryEmb entries embeddings with
      | none => rw [hss] at h2; cases h2
      | some scores =>
        rw [hss] at h2
        simp only [Option.map_some', Option.some.injEq] at h2
        subst h2
        have hxs : x ∈ scores :=
          List.mem_mergeSort.mp ((List.take_sublist _ _).subset hx)
        obtain ⟨hd, -⟩ := semanticScores_mem queryEmb entries embeddings scores hss x hxs
        have hmem := dget_mem _ _ _ hd
        exact ⟨hmem, (load_graph_active _ _ h1 _ hmem).1⟩

unseal Rat.mul Rat.add Rat.sub Rat.inv List.mergeSort List.merge in
/-- C5, witness: the demo semantic search returns both records, and the
claim certifies each is an active member of the store. -/
theorem claim_C5_witness :
    load_graph demoGraph = some [("a", rowA), ("b", rowB)] ∧
      search demoDecode demoGraph (some demoSem) [1, 0] "q" 10 =
        some [("a", ⟨1, 1⟩, rowA), ("b", ⟨0, 1⟩, rowB)] ∧
      (∀ x ∈ ([("a", (⟨1, 1⟩ : Sim), rowA), ("b", ⟨0, 1⟩, rowB)] : List (String × Sim × Row)),
        (x.1, x.2.2) ∈ ([("a", rowA), ("b", rowB)] : List (String × Row)) ∧
          rowGet x.2.2 "archived_date" = some "ACTIVE") :=
  ⟨by decide, by decide,
   claim_C5 demoDecode demoGraph (some demoSem) [1, 0] "q" 10 _ _ (by decide) (by decide)⟩

unseal Rat.mul Rat.add in
/-- C4.  `search` takes the keyword fallback exactly when the loaded
embedding index is empty.  In that branch the result is the active
records whose lowercased `content` contains the lowercased query as a
substring, each with the fixed score `1.0` (`Sim.one`, whose value is 1),
in record-store iteration order (a sublist of the store), truncated to
the first `top_k`; when the index is non-empty, `search` instead runs the
semantic branch.  The last conjunct instantiates the spec's fallback
test: with no sidecar file, the record containing "alpha"
(case-insensitively) is returned with score 1.0 and the record without
it is excluded. -/
theorem claim_C4 :
    (∀ (decode : String → Option (List ℚ)) (graphRows : List Row)
      (semRows : Option (List Row)) (queryEmb : List ℚ) (query : String) (k : Nat)
      (entries : List (String × Row)),
      load_graph graphRows = some entries →
      loadSidecar decode semRows = some [] →
      search decode graphRows semRows queryEmb query k = some (keywordResults query entries k) ∧
      keywordResults query entries k =
        ((entries.filter (fun e => fallbackMatch (lower query) e.2)).map
          (fun e => (e.1, Sim.one, e.2))).take k ∧
      (∀ e : String × Row, fallbackMatch (lower query) e.2 = true ↔
        lower query <:+: lower (rowGetD e.2 "content" "")) ∧
      (∀ x ∈ keywordResults query entries k, x.2.1 = Sim.one) ∧
      Sim.val Sim.one = 1 ∧
      List.Sublist ((keywordResults query entries k).map (fun x => (x.1, x.2.2))) entries ∧
      (keywordResults query entries k).length ≤ k) ∧
    (∀ (decode : String → Option (List ℚ)) (graphRows : List Row)
      (semRows : Option (List Row)) (queryEmb : List ℚ) (query : String) (k : Nat)
      (entries : List (String × Row)) (embeddings : List (String × List ℚ)),
      load_graph graphRows = some entries →
      loadSidecar decode semRows = some embeddings →
      embeddings ≠ [] →
      search decode graphRows semRows queryEmb query k =
        (semanticScores queryEmb entries embeddings).map
          (fun scores => (scores.mergeSort simGe).take k)) ∧
    search demoDecode demoGraph none [] "alpha" 10 = some [("a", Sim.one, rowA)] := by
  refine ⟨?_, fun decode gr sr qe q k en em => search_semantic decode gr sr qe q k en em, ?_⟩
  · intro decode graphRows semRows queryEmb query k entries h1 h2
    refine ⟨search_fallback decode graphRows semRows queryEmb query k entries h1 h2, rfl,
      fun e => hasSub_iff_infix _ _, fun x hx => (keywordResults_mem query entries k x hx).1,
      Sim.val_one, ?_, ?_⟩
    · rw [keywordResults, ← List.map_take, List.map_map]
      have : ((fun x : String × Sim × Row => (x.1, x.2.2)) ∘
          (fun e : String × Row => (e.1, Sim.one, e.2))) = id := by
        funext e; rfl
      rw [this, List.map_id]
      exact ((List.take_sublist _ _).trans (List.filter_sublist _))
    · rw [keywordResults]
      rw [List.length_take]
      exact min_le_left _ _
  · decide

/-- C4, witness: the demo store with an absent sidecar satisfies the
fallback hypotheses, and the claim yields the fallback characterisation
for it. -/
theorem claim_C4_witness :
    load_graph demoGraph = some [("a", rowA), ("b", rowB)] ∧
      loadSidecar demoDecode none = some [] ∧
      (search demoDecode demoGraph none [] "alpha" 10 =
          some (keywordResults "alpha" [("a", rowA), ("b", rowB)] 10) ∧
        keywordResults "alpha" [("a", rowA), ("b", rowB)] 10 =
          (((([("a", rowA), ("b", rowB)] : List (String × Row)).filter
              (fun e => fallbackMatch (lower "alpha") e.2)).map
            (fun e => (e.1, Sim.one, e.2))).take 10) ∧
        (∀ e : String × Row, fallbackMatch (lower "alpha") e.2 = true ↔
          lower "alpha" <:+: lower (rowGetD e.2 "content" "")) ∧
        (∀ x ∈ keywordResults "alpha" [("a", rowA), ("b", rowB)] 10, x.2.1 = Sim.one) ∧
        Sim.val Sim.one = 1 ∧
        List.Sublist ((keywordResults "alpha" [("a", rowA), ("b", rowB)] 10).map
            (fun x => (x.1, x.2.2)))
          ([("a", rowA), ("b", rowB)] : List (String × Row)) ∧
        (keywordResults "alpha" [("a", rowA), ("b", rowB)] 10).length ≤ 10) :=
  ⟨by decide, rfl,
   claim_C4.1 demoDecode demoGraph none [] "alpha" 10 [("a", rowA), ("b", rowB)]
     (by decide) rfl⟩

unseal Rat.mul Rat.add Rat.sub Rat.inv List.mergeSort List.merge in
/-- C3.  Semantic branch: when the embedding index is non-empty (and every
similarity is defined, i.e. no zero-norm vector), `search` scores exactly
the ids present in both the index and the record store — the returned
prefix comes from a list `full` that is a permutation of the index
entries found in the store, each paired with its cosine similarity
`⟨dot q v, ‖q‖²‖v‖²⟩` (the value `dot/(‖q‖·‖v‖)`) — sorted by similarity
descending and truncated to `top_k`.  The final conjuncts instantiate the
spec's ranking test: an embedding identical to the query vector scores 1
and ranks before an orthogonal one scoring 0, even though the orthogonal
one comes first in the index. -/
theorem claim_C3 :
    (∀ (decode : String → Option (List ℚ)) (graphRows : List Row)
      (semRows : Option (List Row)) (queryEmb : List ℚ) (query : String) (k : Nat)
      (entries : List (String × Row)) (embeddings : List (String × List ℚ)),
      load_graph graphRows = some entries →
      loadSidecar decode semRows = some embeddings →
      embeddings ≠ [] →
      normSq queryEmb ≠ 0 →
      (∀ p ∈ embeddings, normSq p.2 ≠ 0) →
      ∃ full : List (String × Sim × Row),
        search decode graphRows semRows queryEmb query k = some (full.take k) ∧
        List.Perm full (embeddings.filterMap (fun p => (dget p.1 entries).map
          (fun e => (p.1, (⟨dot queryEmb p.2, normSq queryEmb * normSq p.2⟩ : Sim), e)))) ∧
        (∀ p ∈ embeddings, cosine_similarity queryEmb p.2 =
          some ⟨dot queryEmb p.2, normSq queryEmb * normSq p.2⟩) ∧
        full.Pairwise (fun x y => Sim.val y.2.1 ≤ Sim.val x.2.1)) ∧
    search demoDecode demoGraph (some demoSem) [1, 0] "q" 10 =
      some [("a", ⟨1, 1⟩, rowA), ("b", ⟨0, 1⟩, rowB)] ∧
    Sim.val ⟨1, 1⟩ = 1 ∧ Sim.val ⟨0, 1⟩ = 0 := by
  refine ⟨?_, by decide, Sim.val_one, by rw [Sim.val]; simp⟩
  intro decode graphRows semRows queryEmb query k entries embeddings h1 h2 h3 hq hall
  have hss := semanticScores_eq queryEmb entries hq embeddings hall
  set scored := embeddings.filterMap (fun p => (dget p.1 entries).map
    (fun e => (p.1, (⟨dot queryEmb p.2, normSq queryEmb * normSq p.2⟩ : Sim), e))) with hscored
  refine ⟨scored.mergeSort simGe, ?_, List.mergeSort_perm scored simGe, ?_, ?_⟩
  · rw [search_semantic decode graphRows semRows queryEmb query k entries embeddings h1 h2 h3,
      hss, Option.map_some']
  · intro p hp
    exact cosine_similarity_eq_some _ _ hq (hall p hp)
  · have hpw := List.sorted_mergeSort simGe_trans simGe_total scored
    refine hpw.imp_of_mem ?_
    intro a b ha hb hab
    have hda : 0 < a.2.1.den2 :=
      mem_scored_den2_pos queryEmb entries hq embeddings hall a (List.mem_mergeSort.mp ha)
    have hdb : 0 < b.2.1.den2 :=
      mem_scored_den2_pos queryEmb entries hq embeddings hall b (List.mem_mergeSort.mp hb)
    rw [Sim.val_le_val_iff _ _ hdb hda]
    simpa [simGe] using hab

unseal Rat.mul Rat.add Rat.sub Rat.inv List.mergeSort List.merge in
/-- C3, witness: the demo store and two-entry sidecar satisfy the
hypotheses of the semantic-branch characterisation. -/
theorem claim_C3_witness :
    ∃ full : List (String × Sim × Row),
      search demoDecode demoGraph (some demoSem) [1, 0] "q" 10 = some (full.take 10) ∧
      List.Perm full
        (([("b", [0, 1]), ("a", [1, 0])] : List (String × List ℚ)).filterMap
          (fun p => (dget p.1 [("a", rowA), ("b", rowB)]).map
            (fun e => (p.1, (⟨dot [1, 0] p.2, normSq [1, 0] * normSq p.2⟩ : Sim), e)))) ∧
      (∀ p ∈ ([("b", [0, 1]), ("a", [1, 0])] : List (String × List ℚ)),
        cosine_similarity [1, 0] p.2 =
          some ⟨dot [1, 0] p.2, normSq [1, 0] * normSq p.2⟩) ∧
      full.Pairwise (fun x y => Sim.val y.2.1 ≤ Sim.val x.2.1) :=
  claim_C3.1 demoDecode demoGraph (some demoSem) [1, 0] "q" 10
    [("a", rowA), ("b", rowB)] [("b", [0, 1]), ("a", [1, 0])]
    (by decide) (by decide) (by decide) (by decide) (by decide)

/-! ## Lemmas about the validator -/

theorem mem_idErrs (e : Err) (n : Nat) (seen : List String) (r : Row) :
    e ∈ idErrs n seen r ↔ e = Err.dupId n (rowId r) ∧ rowId r ∈ seen := by
  rw [idErrs]
  split_ifs with h <;> simp [h]

theorem mem_stanceErrs (e : Err) (n : Nat) (r : Row) :
    e ∈ stanceErrs n r ↔ e = Err.invalidStance n (rowGetD r "stance" "") ∧
      rowGetD r "stance" "" ≠ "" ∧ rowGetD r "stance" "" ∉ VALID_STANCES := by
  rw [stanceErrs]
  split_ifs with h <;> simp_all

theorem mem_typeErrs (e : Err) (n : Nat) (r : Row) :
    e ∈ typeErrs n r ↔ e = Err.invalidType n (rowGetD r "type" "") ∧
      rowGetD r "type" "" ≠ "" ∧ rowGetD r "type" "" ∉ VALID_TYPES := by
  rw [typeErrs]
  split_ifs with h <;> simp_all

theorem mem_certaintyErrs (e : Err) (n : Nat) (r : Row) :
    e ∈ certaintyErrs n r ↔
      rowGetD r "certainty" "" ≠ "" ∧
        ((∃ c, parseFloat? (rowGetD r "certainty" "") = some c ∧ ¬ (0 ≤ c ∧ c ≤ 1) ∧
            e = Err.certaintyOutOfRange n c) ∨
          (parseFloat? (rowGetD r "certainty" "") = none ∧
            e = Err.invalidCertainty n (rowGetD r "certainty" ""))) := by
  rw [certaintyErrs]
  split_ifs with h
  · simp [h]
  · cases hp : parseFloat? (rowGetD r "certainty" "") with
    | none => simp [h, hp]
    | some c =>
      show e ∈ (if ¬ (0 ≤ c ∧ c ≤ 1) then [Err.certaintyOutOfRange n c] else []) ↔ _
      split_ifs with hc
      · simp only [List.not_mem_nil, false_iff]
        rintro ⟨-, ⟨c', hc', hrange, -⟩ | ⟨hn, -⟩⟩
        · injection hc' with h'
          subst h'
          exact hrange hc
        · exact hn.elim
      · constructor
        · intro he
          exact ⟨h, Or.inl ⟨c, rfl, hc, List.mem_singleton.mp he⟩⟩
        · rintro ⟨-, ⟨c', hc', hrange, rfl⟩ | ⟨hn, -⟩⟩
          · injection hc' with h'
            subst h'
            exact List.mem_singleton.mpr rfl
          · exact hn.elim

theorem mem_archivedErrs (e : Err) (n : Nat) (r : Row) :
    e ∈ archivedErrs n r ↔ e = Err.invalidArchivedDate n (rowGetD r "archived_date" "") ∧
      rowGetD r "archived_date" "" ≠ "" ∧ rowGetD r "archived_date" "" ≠ "ACTIVE" ∧
      isoDateStart (rowGetD r "archived_date" "") = false := by
  rw [archivedErrs]
  split_ifs with h
  · simp only [List.mem_singleton]
    constructor
    · intro he
      exact ⟨he, h.1, h.2.1, by simpa using h.2.2⟩
    · rintro ⟨he, -⟩
      exact he
  · simp only [List.not_mem_nil, false_iff]
    rintro ⟨-, h1, h2, h3⟩
    exact h ⟨h1, h2, by simp [h3]⟩

theorem mem_linkErrs (e : Err) (n : Nat) (r : Row) :
    e ∈ linkErrs n r ↔ rowGetD r "type" "" = "link" ∧
      ((rowGetD r "ref1" "" = "" ∧ e = Err.linkMissingRef1 n) ∨
        (rowGetD r "ref2" "" = "" ∧ e = Err.linkMissingRef2 n)) := by
  rw [linkErrs]
  split_ifs with h h1 h2 h2 <;> simp_all

theorem rowNum_of_mem_checkRow (e : Err) (n : Nat) (seen : List String) (r : Row)
    (h : e ∈ checkRow n seen r) : e.rowNum = n := by
  rw [checkRow] at h
  simp only [List.mem_append] at h
  rcases h with ((((h | h) | h) | h) | h) | h
  · obtain ⟨rfl, -⟩ := (mem_idErrs e n seen r).mp h; rfl
  · obtain ⟨rfl, -⟩ := (mem_stanceErrs e n r).mp h; rfl
  · obtain ⟨rfl, -⟩ := (mem_typeErrs e n r).mp h; rfl
  · obtain ⟨-, ⟨c, -, -, rfl⟩ | ⟨-, rfl⟩⟩ := (mem_certaintyErrs e n r).mp h <;> rfl
  · obtain ⟨rfl, -⟩ := (mem_archivedErrs e n r).mp h; rfl
  · obtain ⟨-, ⟨-, rfl⟩ | ⟨-, rfl⟩⟩ := (mem_linkErrs e n r).mp h <;> rfl

theorem dupId_mem_checkRow (m n : Nat) (seen : List String) (r : Row) (i : String) :
    Err.dupId m i ∈ checkRow n seen r ↔ m = n ∧ i = rowId r ∧ rowId r ∈ seen := by
  rw [checkRow]
  simp only [List.mem_append, mem_idErrs, mem_stanceErrs, mem_typeErrs, mem_certaintyErrs,
    mem_archivedErrs, mem_linkErrs]
  simp
  tauto

theorem invalidCertainty_mem_checkRow (m n : Nat) (seen : List String) (r : Row) (s : String) :
    Err.invalidCertainty m s ∈ checkRow n seen r ↔
      m = n ∧ rowGetD r "certainty" "" = s ∧ s ≠ "" ∧
        parseFloat? (rowGetD r "certainty" "") = none := by
  rw [checkRow]
  simp only [List.mem_append, mem_idErrs, mem_stanceErrs, mem_typeErrs, mem_certaintyErrs,
    mem_archivedErrs, mem_linkErrs]
  simp
  constructor
  · rintro ⟨hne, hn, rfl, rfl⟩
    exact ⟨rfl, rfl, hne, hn⟩
  · rintro ⟨rfl, rfl, hne, hn⟩
    exact ⟨hne, hn, rfl, rfl⟩

theorem outOfRange_mem_checkRow (m n : Nat) (seen : List String) (r : Row) (c : ℚ) :
    Err.certaintyOutOfRange m c ∈ checkRow n seen r ↔
      m = n ∧ rowGetD r "certainty" "" ≠ "" ∧
        parseFloat? (rowGetD r "certainty" "") = some c ∧ ¬ (0 ≤ c ∧ c ≤ 1) := by
  rw [checkRow]
  simp only [List.mem_append]
  constructor
  · rintro (((((h | h) | h) | h) | h) | h)
    · obtain ⟨he, -⟩ := (mem_idErrs _ _ _ _).mp h
      simp at he
    · obtain ⟨he, -⟩ := (mem_stanceErrs _ _ _).mp h
      simp at he
    · obtain ⟨he, -⟩ := (mem_typeErrs _ _ _).mp h
      simp at he
    · obtain ⟨hne, hcase⟩ := (mem_certaintyErrs _ _ _).mp h
      rcases hcase with ⟨c', hp, hr, he⟩ | ⟨-, he⟩
      · injection he with h1 h2
        subst h1
        subst h2
        exact ⟨rfl, hne, hp, hr⟩
      · simp at he
    · obtain ⟨he, -⟩ := (mem_archivedErrs _ _ _).mp h
      simp at he
    · obtain ⟨-, hcase⟩ := (mem_linkErrs _ _ _).mp h
      rcases hcase with ⟨-, he⟩ | ⟨-, he⟩ <;> simp at he
  · rintro ⟨rfl, hne, hp, hr⟩
    refine Or.inl (Or.inl (Or.inr ?_))
    exact (mem_certaintyErrs _ _ _).mpr ⟨hne, Or.inl ⟨c, hp, hr, rfl⟩⟩

theorem invalidArchived_mem_checkRow (m n : Nat) (seen : List String) (r : Row) (s : String) :
    Err.invalidArchivedDate m s ∈ checkRow n seen r ↔
      m = n ∧ rowGetD r "archived_date" "" = s ∧ s ≠ "" ∧ s ≠ "ACTIVE" ∧
        isoDateStart s = false := by
  rw [checkRow]
  simp only [List.mem_append]
  constructor
  · rintro (((((h | h) | h) | h) | h) | h)
    · obtain ⟨he, -⟩ := (mem_idErrs _ _ _ _).mp h
      simp at he
    · obtain ⟨he, -⟩ := (mem_stanceErrs _ _ _).mp h
      simp at he
    · obtain ⟨he, -⟩ := (mem_typeErrs _ _ _).mp h
      simp at he
    · obtain ⟨-, hcase⟩ := (mem_certaintyErrs _ _ _).mp h
      rcases hcase with ⟨c', -, -, he⟩ | ⟨-, he⟩ <;> simp at he
    · obtain ⟨he, h1, h2, h3⟩ := (mem_archivedErrs _ _ _).mp h
      injection he with hm hs
      subst hm
      subst hs
      exact ⟨rfl, rfl, h1, h2, h3⟩
    · obtain ⟨-, hcase⟩ := (mem_linkErrs _ _ _).mp h
      rcases hcase with ⟨-, he⟩ | ⟨-, he⟩ <;> simp at he
  · rintro ⟨rfl, rfl, h1, h2, h3⟩
    refine Or.inl (Or.inr ?_)
    exact (mem_archivedErrs _ _ _).mpr ⟨rfl, h1, h2, h3⟩

theorem mem_validateRows_indep {E : Nat → Err} {C : Row → Prop}
    (hC : ∀ (m n : Nat) (seen : List String) (r : Row),
      (E m ∈ checkRow n seen r ↔ m = n ∧ C r)) :
    ∀ (rows : List Row) (n : Nat) (seen : List String) (m : Nat),
      E m ∈ validateRows n seen rows ↔
        ∃ k, ∃ h : k < rows.length, m = n + 1 + k ∧ C (rows.get ⟨k, h⟩) := by
  intro rows
  induction rows with
  | nil => intro n seen m; rw [validateRows]; simp
  | cons r rs ih =>
    intro n seen m
    rw [validateRows]
    simp only [List.mem_append, hC, ih]
    constructor
    · rintro (⟨rfl, hc⟩ | ⟨k, hk, rfl, hc⟩)
      · exact ⟨0, by simp, by omega, hc⟩
      · exact ⟨k + 1, by simpa using hk, by omega, by simpa using hc⟩
    · rintro ⟨k, hk, rfl, hc⟩
      cases k with
      | zero => exact Or.inl ⟨by omega, by simpa using hc⟩
      | succ k' =>
        refine Or.inr ⟨k', by simpa using hk, by omega, by simpa using hc⟩

theorem dupId_mem_validateRows :
    ∀ (rows : List Row) (n : Nat) (seen : List String) (m : Nat) (i : String),
      Err.dupId m i ∈ validateRows n seen rows ↔
        ∃ k, ∃ h : k < rows.length, m = n + 1 + k ∧ rowId (rows.get ⟨k, h⟩) = i ∧
          (i ∈ seen ∨ i ∈ (rows.take k).map rowId) := by
  intro rows
  induction rows with
  | nil => intro n seen m i; rw [validateRows]; simp
  | cons r rs ih =>
    intro n seen m i
    rw [validateRows]
    simp only [List.mem_append, dupId_mem_checkRow, ih]
    constructor
    · rintro (⟨rfl, rfl, hs⟩ | ⟨k, hk, rfl, hid, hin⟩)
      · exact ⟨0, by simp, by omega, rfl, Or.inl hs⟩
      · refine ⟨k + 1, by simpa using hk, by omega, by simpa using hid, ?_⟩
        rcases hin with hin | hin
        · rcases List.mem_cons.mp hin with rfl | hin
          · exact Or.inr (by simp [List.take_succ_cons])
          · exact Or.inl hin
        · refine Or.inr ?_
          rw [List.take_succ_cons, List.map_cons]
          exact List.mem_cons_of_mem _ hin
    · rintro ⟨k, hk, rfl, hid, hin⟩
      cases k with
      | zero =>
        refine Or.inl ⟨by omega, by simpa using hid.symm, ?_⟩
        rcases hin with hin | hin
        · simpa using hid ▸ hin
        · simp at hin
      | succ k' =>
        refine Or.inr ⟨k', by simpa using hk, by omega, by simpa using hid, ?_⟩
        rcases hin with hin | hin
        · exact Or.inl (List.mem_cons_of_mem _ hin)
        · rw [List.take_succ_cons, List.map_cons] at hin
          rcases List.mem_cons.mp hin with rfl | hin
          · exact Or.inl (List.mem_cons_self _ _)
          · exact Or.inr hin

theorem count_dupId_checkRow_le_one (m n : Nat) (seen : List String) (r : Row) (i : String) :
    (checkRow n seen r).count (Err.dupId m i) ≤ 1 := by
  rw [checkRow]
  simp only [List.count_append]
  have h2 : (stanceErrs n r).count (Err.dupId m i) = 0 :=
    List.count_eq_zero.mpr (fun h => by obtain ⟨he, -⟩ := (mem_stanceErrs _ _ _).mp h; simp at he)
  have h3 : (typeErrs n r).count (Err.dupId m i) = 0 :=
    List.count_eq_zero.mpr (fun h => by obtain ⟨he, -⟩ := (mem_typeErrs _ _ _).mp h; simp at he)
  have h4 : (certaintyErrs n r).count (Err.dupId m i) = 0 :=
    List.count_eq_zero.mpr (fun h => by
      obtain ⟨-, ⟨c, -, -, he⟩ | ⟨-, he⟩⟩ := (mem_certaintyErrs _ _ _).mp h <;> simp at he)
  have h5 : (archivedErrs n r).count (Err.dupId m i) = 0 :=
    List.count_eq_zero.mpr (fun h => by obtain ⟨he, -⟩ := (mem_archivedErrs _ _ _).mp h; simp at he)
  have h6 : (linkErrs n r).count (Err.dupId m i) = 0 :=
    List.count_eq_zero.mpr (fun h => by
      obtain ⟨-, ⟨-, he⟩ | ⟨-, he⟩⟩ := (mem_linkErrs _ _ _).mp h <;> simp at he)
  have h1 : (idErrs n seen r).count (Err.dupId m i) ≤ 1 := by
    rw [idErrs]
    split_ifs
    · exact (List.count_le_length _ _)
    · simp
  omega

theorem rowNum_lb_validateRows :
    ∀ (rows : List Row) (n : Nat) (seen : List String) (e : Err),
      e ∈ validateRows n seen rows → n + 1 ≤ e.rowNum := by
  intro rows
  induction rows with
  | nil => intro n seen e h; rw [validateRows] at h; simp at h
  | cons r rs ih =>
    intro n seen e h
    rw [validateRows] at h
    rcases List.mem_append.mp h with h | h
    · exact (rowNum_of_mem_checkRow e (n + 1) seen r h).ge
    · have := ih (n + 1) (rowId r :: seen) e h
      omega

theorem count_dupId_validateRows_le_one :
    ∀ (rows : List Row) (n : Nat) (seen : List String) (m : Nat) (i : String),
      (validateRows n seen rows).count (Err.dupId m i) ≤ 1 := by
  intro rows
  induction rows with
  | nil => intro n seen m i; rw [validateRows]; simp
  | cons r rs ih =>
    intro n seen m i
    rw [validateRows]
    rw [List.count_append]
    by_cases hm : m = n + 1
    · have htail : (validateRows (n + 1) (rowId r :: seen) rs).count (Err.dupId m i) = 0 := by
        refine List.count_eq_zero.mpr (fun h => ?_)
        have := rowNum_lb_validateRows rs (n + 1) (rowId r :: seen) _ h
        simp [Err.rowNum] at this
        omega
      have hhead := count_dupId_checkRow_le_one m (n + 1) seen r i
      omega
    · have hhead : (checkRow (n + 1) seen r).count (Err.dupId m i) = 0 := by
        refine List.count_eq_zero.mpr (fun h => ?_)
        have := rowNum_of_mem_checkRow _ _ _ _ h
        simp [Err.rowNum] at this
        exact hm this
      have htail := ih (n + 1) (rowId r :: seen) m i
      omega

theorem validate_file_snd (header : List String) (rows : List Row) :
    ∃ hd, (validate_graph (.file header rows)).2 = hd ++ validateRows 1 [] rows ∧
      ∀ e ∈ hd, ∃ fs, e = Err.missingFields fs := by
  simp only [validate_graph]
  split_ifs with h
  · exact ⟨[], by simp, by simp⟩
  · exact ⟨[Err.missingFields (REQUIRED_FIELDS.filter (fun f => f ∉ header))], by simp, by simp⟩

/-- C6.  `validate_graph` flags a duplicate-id error for row number `m`
and id `i` exactly when `m = k + 2` for a 0-based data-row index `k`
(header row 1, first data row 2) whose `id` value — possibly the empty
string, archived rows included — already occurred among the first `k`
rows; and it emits at most one such error per row number, i.e. exactly
one per repeated occurrence and none for the first occurrence.  The
concrete conjunct validates a file where an id "x" duplicates an archived
row's id and a missing id column duplicates the empty string. -/
theorem claim_C6 :
    (∀ (header : List String) (rows : List Row) (m : Nat) (i : String),
      (Err.dupId m i ∈ (validate_graph (.file header rows)).2 ↔
        ∃ k, ∃ h : k < rows.length, m = k + 2 ∧ rowId (rows.get ⟨k, h⟩) = i ∧
          i ∈ (rows.take k).map rowId) ∧
      (validate_graph (.file header rows)).2.count (Err.dupId m i) ≤ 1) ∧
    validate_graph (.file REQUIRED_FIELDS demoDupRows) =
      (false, [Err.dupId 3 "x", Err.dupId 5 ""]) := by
  refine ⟨?_, by decide⟩
  intro header rows m i
  obtain ⟨hd, heq, hall⟩ := validate_file_snd header rows
  rw [heq]
  constructor
  · rw [List.mem_append, dupId_mem_validateRows]
    constructor
    · rintro (hmem | ⟨k, hk, rfl, hid, hin | hin⟩)
      · obtain ⟨fs, hfs⟩ := hall _ hmem
        simp at hfs
      · simp at hin
      · exact ⟨k, hk, by omega, hid, hin⟩
    · rintro ⟨k, hk, rfl, hid, hin⟩
      exact Or.inr ⟨k, hk, by omega, hid, Or.inr hin⟩
  · rw [List.count_append]
    have hhd : hd.count (Err.dupId m i) = 0 := by
      refine List.count_eq_zero.mpr (fun hmem => ?_)
      obtain ⟨fs, hfs⟩ := hall _ hmem
      simp at hfs
    have := count_dupId_validateRows_le_one rows 1 [] m i
    omega

unseal Rat.mul Rat.add Rat.sub Rat.inv in
/-- C7.  For rows with non-empty `certainty`, `validate_graph` reports the
invalid-certainty kind exactly when the value fails to parse as a float,
and the distinct out-of-range kind exactly when it parses outside
`[0, 1]`; an empty certainty is never flagged (both characterisations
require a non-empty field).  The concrete conjunct: "0.0" and "1.0" pass,
"1.1" and "-0.1" get out-of-range errors, "abc" gets the invalid (not
out-of-range) error. -/
theorem claim_C7 :
    (∀ (header : List String) (rows : List Row) (m : Nat) (s : String),
      Err.invalidCertainty m s ∈ (validate_graph (.file header rows)).2 ↔
        ∃ k, ∃ h : k < rows.length, m = k + 2 ∧
          rowGetD (rows.get ⟨k, h⟩) "certainty" "" = s ∧ s ≠ "" ∧
          parseFloat? (rowGetD (rows.get ⟨k, h⟩) "certainty" "") = none) ∧
    (∀ (header : List String) (rows : List Row) (m : Nat) (c : ℚ),
      Err.certaintyOutOfRange m c ∈ (validate_graph (.file header rows)).2 ↔
        ∃ k, ∃ h : k < rows.length, m = k + 2 ∧
          rowGetD (rows.get ⟨k, h⟩) "certainty" "" ≠ "" ∧
          parseFloat? (rowGetD (rows.get ⟨k, h⟩) "certainty" "") = some c ∧
          ¬ (0 ≤ c ∧ c ≤ 1)) ∧
    validate_graph (.file REQUIRED_FIELDS demoCertRows) =
      (false, [Err.certaintyOutOfRange 4 (11 / 10), Err.certaintyOutOfRange 5 (-1 / 10),
               Err.invalidCertainty 6 "abc"]) := by
  refine ⟨?_, ?_, by decide⟩
  · intro header rows m s
    obtain ⟨hd, heq, hall⟩ := validate_file_snd header rows
    rw [heq, List.mem_append,
      mem_validateRows_indep (fun m' n seen r => invalidCertainty_mem_checkRow m' n seen r s)]
    constructor
    · rintro (hmem | ⟨k, hk, rfl, hc⟩)
      · obtain ⟨fs, hfs⟩ := hall _ hmem
        simp at hfs
      · exact ⟨k, hk, by omega, hc.1, hc.2.1, hc.2.2⟩
    · rintro ⟨k, hk, rfl, h1, h2, h3⟩
      exact Or.inr ⟨k, hk, by omega, h1, h2, h3⟩
  · intro header rows m c
    obtain ⟨hd, heq, hall⟩ := validate_file_snd header rows
    rw [heq, List.mem_append,
      mem_validateRows_indep (fun m' n seen r => outOfRange_mem_checkRow m' n seen r c)]
    constructor
    · rintro (hmem | ⟨k, hk, rfl, hc⟩)
      · obtain ⟨fs, hfs⟩ := hall _ hmem
        simp at hfs
      · exact ⟨k, hk, by omega, hc.1, hc.2.1, hc.2.2⟩
    · rintro ⟨k, hk, rfl, h1, h2, h3⟩
      exact Or.inr ⟨k, hk, by omega, h1, h2, h3⟩

/-- C8.  `validate_graph` flags the `archived_date` field of a row exactly
when it is non-empty, differs from "ACTIVE", and does not begin with the
`YYYY-MM-DD` digit pattern; trailing detail after that prefix is
tolerated.  Concretely: "ACTIVE", "2024-01-15" and "2024-01-15T10:00"
pass, "2024-1-15" and "not-a-date" are flagged. -/
theorem claim_C8 :
    (∀ (header : List String) (rows : List Row) (m : Nat) (s : String),
      Err.invalidArchivedDate m s ∈ (validate_graph (.file header rows)).2 ↔
        ∃ k, ∃ h : k < rows.length, m = k + 2 ∧
          rowGetD (rows.get ⟨k, h⟩) "archived_date" "" = s ∧ s ≠ "" ∧ s ≠ "ACTIVE" ∧
          isoDateStart s = false) ∧
    isoDateStart "2024-01-15" = true ∧ isoDateStart "2024-01-15T10:00" = true ∧
    isoDateStart "2024-1-15" = false ∧ isoDateStart "not-a-date" = false ∧
    validate_graph (.file REQUIRED_FIELDS demoArchRows) =
      (false, [Err.invalidArchivedDate 4 "2024-1-15", Err.invalidArchivedDate 5 "not-a-date"]) := by
  refine ⟨?_, by decide, by decide, by decide, by decide, by decide⟩
  intro header rows m s
  obtain ⟨hd, heq, hall⟩ := validate_file_snd header rows
  rw [heq, List.mem_append,
    mem_validateRows_indep (fun m' n seen r => invalidArchived_mem_checkRow m' n seen r s)]
  constructor
  · rintro (hmem | ⟨k, hk, rfl, hc⟩)
    · obtain ⟨fs, hfs⟩ := hall _ hmem
      simp at hfs
    · exact ⟨k, hk, by omega, hc⟩
  · rintro ⟨k, hk, rfl, hc⟩
    exact Or.inr ⟨k, hk, by omega, hc⟩

theorem checkRow_eq_nil (n : Nat) (seen : List String) (r : Row)
    (hid : rowId r ∉ seen) (hok : RowChecksOk r) : checkRow n seen r = [] := by
  obtain ⟨hst, hty, hce, har, hlk⟩ := hok
  have e1 : idErrs n seen r = [] := by rw [idErrs, if_neg hid]
  have e2 : stanceErrs n r = [] := by
    rw [stanceErrs]
    rcases hst with h | h <;> simp [h]
  have e3 : typeErrs n r = [] := by
    rw [typeErrs]
    rcases hty with h | h <;> simp [h]
  have e4 : certaintyErrs n r = [] := by
    rw [certaintyErrs]
    by_cases h0 : rowGetD r "certainty" "" = ""
    · rw [if_pos h0]
    · rw [if_neg h0]
      rcases hce with h | ⟨c, hp, hc0, hc1⟩
      · exact absurd h h0
      · simp [hp, hc0, hc1]
  have e5 : archivedErrs n r = [] := by
    rw [archivedErrs]
    rcases har with h | h | h <;> simp [h]
  have e6 : linkErrs n r = [] := by
    rw [linkErrs]
    by_cases hl : rowGetD r "type" "" = "link"
    · obtain ⟨h1, h2⟩ := hlk hl
      rw [if_pos hl, if_neg h1, if_neg h2]
      rfl
    · rw [if_neg hl]
  rw [checkRow, e1, e2, e3, e4, e5, e6]
  rfl

theorem validateRows_eq_nil :
    ∀ (rows : List Row) (n : Nat) (seen : List String),
      (rows.map rowId).Nodup → (∀ r ∈ rows, RowChecksOk r) →
      (∀ r ∈ rows, rowId r ∉ seen) → validateRows n seen rows = [] := by
  intro rows
  induction rows with
  | nil => intro n seen _ _ _; rw [validateRows]
  | cons r rs ih =>
    intro n seen hnd hok hseen
    have hnd' : (∀ x ∈ rs, rowId x ≠ rowId r) ∧ (rs.map rowId).Nodup := by simpa using hnd
    rw [validateRows, checkRow_eq_nil (n + 1) seen r (hseen r (List.mem_cons_self _ _))
      (hok r (List.mem_cons_self _ _)), List.nil_append]
    refine ih (n + 1) _ hnd'.2 (fun r' hr' => hok r' (List.mem_cons_of_mem _ hr')) ?_
    intro r' hr' hmem
    rcases List.mem_cons.mp hmem with heq | hmem2
    · exact hnd'.1 r' hr' heq
    · exact hseen r' (List.mem_cons_of_mem _ hr') hmem2

/-- C9.  `validate_graph` reports valid exactly when its accumulated error
list is empty; and for every file whose header has all required fields
and whose rows violate none of the per-row checks (unique ids, stance and
type in their enums, certainty parsing into [0, 1], well-formed
archived_date, links with both refs), it returns `(true, [])`. -/
theorem claim_C9 :
    (∀ src : GraphSource, ((validate_graph src).1 = true ↔ (validate_graph src).2 = [])) ∧
    (∀ (header : List String) (rows : List Row),
      (∀ f ∈ REQUIRED_FIELDS, f ∈ header) →
      (rows.map rowId).Nodup →
      (∀ r ∈ rows, RowChecksOk r) →
      validate_graph (.file header rows) = (true, [])) := by
  constructor
  · intro src
    cases src with
    | missing p => simp [validate_graph]
    | noHeader => simp [validate_graph]
    | file header rows => simp [validate_graph, List.isEmpty_iff]
  · intro header rows hhead hnd hok
    have hmiss : REQUIRED_FIELDS.filter (fun f => f ∉ header) = [] := by
      rw [List.filter_eq_nil_iff]
      intro f hf
      simp [hhead f hf]
    rw [validate_graph]
    simp only [hmiss, validateRows_eq_nil rows 1 [] hnd hok (by simp)]
    rfl

unseal Rat.mul Rat.add Rat.sub Rat.inv in
/-- C9, witness: a one-row file with all required columns, stance "fact",
type "item" and certainty "0.5" satisfies every hypothesis, and
validation returns `(true, [])` on it. -/
theorem claim_C9_witness :
    (∀ f ∈ REQUIRED_FIELDS, f ∈ REQUIRED_FIELDS) ∧
      (([demoGoodRow] : List Row).map rowId).Nodup ∧
      (∀ r ∈ ([demoGoodRow] : List Row), RowChecksOk r) ∧
      validate_graph (.file REQUIRED_FIELDS [demoGoodRow]) = (true, []) := by
  have hok : ∀ r ∈ ([demoGoodRow] : List Row), RowChecksOk r := by
    intro r hr
    rcases List.mem_singleton.mp hr with rfl
    exact ⟨Or.inr (by decide), Or.inr (by decide),
      Or.inr ⟨1 / 2, by decide, by decide, by decide⟩,
      Or.inr (Or.inl (by decide)), fun h => absurd h (by decide)⟩
  exact ⟨fun f hf => hf, by decide, hok,
    claim_C9.2 REQUIRED_FIELDS [demoGoodRow] (fun f hf => hf) (by decide) hok⟩

end TsvGraph
